import Mathlib

/-!
Verification of the Smart Money Concepts market-structure engine of the
KLineChart repository.

The development shallowly embeds the calc function of the SMC indicator:
the canonical offset-confirmation pivot scanner with os-state toggling,
the per-level BOS/CHoCH break classifier with FIFO pivot consumption and
a three-valued trend register, the writeRange channel-truncation helper,
and (as a second variant) the symmetric-window pivot detector of
smartMoneyConcepts.ts.  Prices are modelled as rationals; the JavaScript
minus/plus Infinity initialisers of the window extremum folds are
modelled with WithBot and WithTop.
-/

namespace SMC

/-- One OHLC bar; only the fields the engine reads are kept. -/
structure Bar where
  high : ℚ
  low : ℚ
  close : ℚ
deriving DecidableEq

/-- The os candidate-state register of the Pine-style scan: 0 = top, 1 = bottom. -/
inductive OS where
  | top
  | bottom
deriving DecidableEq

/-- A detected pivot: bar index and pivot price. -/
structure Pivot where
  index : Nat
  price : ℚ
deriving DecidableEq, Repr

/-- Maximum of the highs over the forward window, folded from minus infinity
exactly as the maxHigh loop of the source does. -/
def maxHighWin (bar : Nat → Bar) (p len : Nat) : WithBot ℚ :=
  (List.range' (p + 1) len).foldl (fun a j => max a ((bar j).high : WithBot ℚ)) ⊥

/-- Minimum of the lows over the forward window, folded from plus infinity
exactly as the minLow loop of the source does. -/
def minLowWin (bar : Nat → Bar) (p len : Nat) : WithTop ℚ :=
  (List.range' (p + 1) len).foldl (fun a j => min a ((bar j).low : WithTop ℚ)) ⊤

/-- State of the pivot scan: the os register plus the pivot lists collected so far. -/
structure ScanState where
  os : Option OS
  highs : List Pivot
  lows : List Pivot
deriving DecidableEq

/-- One iteration of the pivot-scan loop at evaluation index i: candidate
p = i - L, forward window (p, i], top/bottom qualification with top priority,
emission on toggle. -/
def scanStep (bar : Nat → Bar) (L : Nat) (s : ScanState) (i : Nat) : ScanState :=
  let p := i - L
  let currOs : Option OS :=
    if ((bar p).high : WithBot ℚ) > maxHighWin bar p (i - p) then some OS.top
    else if ((bar p).low : WithTop ℚ) < minLowWin bar p (i - p) then some OS.bottom
    else s.os
  { os := currOs
    highs :=
      if currOs = some OS.top ∧ s.os ≠ some OS.top then s.highs ++ [⟨p, (bar p).high⟩]
      else s.highs
    lows :=
      if currOs = some OS.bottom ∧ s.os ≠ some OS.bottom then s.lows ++ [⟨p, (bar p).low⟩]
      else s.lows }

/-- Initial scan state: os is null, no pivots. -/
def scanInit : ScanState := ⟨none, [], []⟩

/-- Fold of the scan step over a list of evaluation indices. -/
def scanFrom (bar : Nat → Bar) (L : Nat) (s : ScanState) (l : List Nat) : ScanState :=
  l.foldl (scanStep bar L) s

/-- The full pivot scan: evaluation indices L, L+1, ..., n-1. -/
def pivotScan (bar : Nat → Bar) (n L : Nat) : ScanState :=
  scanFrom bar L scanInit (List.range' L (n - L))

/-- Trend register per level: 1 = bullish, -1 = bearish, 0 = neutral in the source. -/
inductive Trend where
  | neutral
  | bullish
  | bearish
deriving DecidableEq

/-- A structure-break event as emitted by the classifier. -/
structure Event where
  pivotIndex : Nat
  breakIndex : Nat
  price : ℚ
  choch : Bool
  bull : Bool
deriving DecidableEq, Repr

/-- State of the break classifier for one level. -/
structure ClsState where
  highs : List Pivot
  lows : List Pivot
  trend : Trend
  events : List Event
deriving DecidableEq

/-- Matching condition of the bullish check: pivot.index less than i and
close above the pivot price. -/
def bullBreakPred (close : ℚ) (i : Nat) (pv : Pivot) : Bool :=
  decide (pv.index < i) && decide (close > pv.price)

/-- Matching condition of the bearish check: pivot.index less than i and
close below the pivot price. -/
def bearBreakPred (close : ℚ) (i : Nat) (pv : Pivot) : Bool :=
  decide (pv.index < i) && decide (close < pv.price)

/-- The bullish check of one bar: take the first matching pivot-high in list
order, classify CHoCH exactly when the trend register was bearish, set the
register bullish, splice the pivot out, emit one event. -/
def bullStep (close : ℚ) (i : Nat) (s : ClsState) : ClsState :=
  match s.highs.find? (bullBreakPred close i) with
  | none => s
  | some pv =>
    { highs := s.highs.erase pv
      lows := s.lows
      trend := Trend.bullish
      events := s.events ++ [⟨pv.index, i, pv.price, decide (s.trend = Trend.bearish), true⟩] }

/-- The bearish check of one bar: take the first matching pivot-low in list
order, classify CHoCH exactly when the trend register was bullish, set the
register bearish, splice the pivot out, emit one event. -/
def bearStep (close : ℚ) (i : Nat) (s : ClsState) : ClsState :=
  match s.lows.find? (bearBreakPred close i) with
  | none => s
  | some pv =>
    { highs := s.highs
      lows := s.lows.erase pv
      trend := Trend.bearish
      events := s.events ++ [⟨pv.index, i, pv.price, decide (s.trend = Trend.bullish), false⟩] }

/-- Processing of one bar for one level: the bullish check then the bearish check. -/
def classifyStep (bar : Nat → Bar) (s : ClsState) (i : Nat) : ClsState :=
  bearStep (bar i).close i (bullStep (bar i).close i s)

/-- Fold of the per-bar classification over a list of bar indices. -/
def classifyFrom (bar : Nat → Bar) (s : ClsState) (l : List Nat) : ClsState :=
  l.foldl (classifyStep bar) s

/-- The full break-classification pass for one level over bars 0..n-1,
starting from a neutral trend register and an empty event list. -/
def classify (bar : Nat → Bar) (n : Nat) (highs lows : List Pivot) : ClsState :=
  classifyFrom bar ⟨highs, lows, Trend.neutral, []⟩ (List.range n)

/-- The full engine for one level: scan for pivots, then classify breaks. -/
def runLevel (bar : Nat → Bar) (n L : Nat) : ClsState :=
  classify bar n (pivotScan bar n L).highs (pivotScan bar n L).lows

/-! Channel-mode assembly: the writeRange helper of the source.  A channel is
modelled as a partial map from bar index to price; the results array has
length n and the source only ever stores values at indices below n, so an
out-of-range read (undefined through optional chaining) is a none cell. -/

/-- A channel: one named slot of the results array, per bar index. -/
def Chan : Type := Nat → Option ℚ

/-- The empty channel: every cell undefined. -/
def emptyChan : Chan := fun _ => none

/-- Downward scan of the runStart loop: starting at k and walking toward 0,
the last consecutive index whose cell is defined, or none when the cell at k
is already undefined. -/
def findRunStart (c : Chan) : Nat → Option Nat
  | 0 => if (c 0).isSome then some 0 else none
  | k + 1 =>
    if (c (k + 1)).isSome then
      match findRunStart c k with
      | some r => some r
      | none => some (k + 1)
    else none

/-- Forward scan of the runEnd loop with explicit fuel: extend e while the
next cell is defined and still inside the array. -/
def findRunEndAux (c : Chan) (n : Nat) : Nat → Nat → Nat
  | e, 0 => e
  | e, fuel + 1 =>
    if e + 1 < n ∧ (c (e + 1)).isSome then findRunEndAux c n (e + 1) fuel else e

/-- End of the contiguous defined run that starts at r, bounded by the array
length n. -/
def findRunEnd (c : Chan) (n : Nat) (r : Nat) : Nat :=
  findRunEndAux c n r (n - r)

/-- Truncation pass of writeRange: if a contiguous defined run reaches the
cell just before start and extends to start or beyond, delete its cells from
start through the run end. -/
def truncatePrior (n : Nat) (c : Chan) (start : Nat) : Chan :=
  match findRunStart c (start - 1) with
  | none => c
  | some r =>
    let e := findRunEnd c n r
    if start ≤ e then fun j => if start ≤ j ∧ j ≤ e ∧ j < n then none else c j
    else c

/-- The writeRange helper: truncate the prior overlapping run, then write the
price over all in-range indices of the closed interval from start to stop. -/
def writeRange (n : Nat) (c : Chan) (start stop : Nat) (price : ℚ) : Chan :=
  fun j =>
    if start ≤ j ∧ j ≤ stop ∧ j < n then some price else truncatePrior n c start j

/-- One pending range write of an event: interval endpoints and price. -/
structure Write where
  start : Nat
  stop : Nat
  price : ℚ
deriving DecidableEq

/-- Whether a write covers a bar index. -/
def coversW (w : Write) (j : Nat) : Bool :=
  decide (w.start ≤ j) && decide (j ≤ w.stop)

/-- Folding writeRange over a list of writes, as the per-bar loop does for
one channel. -/
def applyWrites (n : Nat) (ws : List Write) (c : Chan) : Chan :=
  ws.foldl (fun c w => writeRange n c w.start w.stop w.price) c

/-- The price of the last write in the list covering a given index, if any. -/
def lastCover (ws : List Write) (j : Nat) : Option ℚ :=
  (ws.reverse.find? (fun w => coversW w j)).map Write.price

/-! Symmetric-window pivot detection, the strategy of the second source file
smartMoneyConcepts.ts: bar i is a pivot high iff every other bar in the
window from i - L to i + L has a strictly smaller high, and the window must
lie inside the array. -/

/-- Symmetric-window swing-high test of smartMoneyConcepts.ts. -/
def isSymHigh (bar : Nat → Bar) (n L i : Nat) : Bool :=
  decide (L ≤ i) && decide (i + L < n) &&
    (List.range' (i - L) (2 * L + 1)).all
      (fun j => decide (j = i) || decide ((bar j).high < (bar i).high))

/-- Symmetric-window swing-low test of smartMoneyConcepts.ts. -/
def isSymLow (bar : Nat → Bar) (n L i : Nat) : Bool :=
  decide (L ≤ i) && decide (i + L < n) &&
    (List.range' (i - L) (2 * L + 1)).all
      (fun j => decide (j = i) || decide ((bar j).low > (bar i).low))

/-- All symmetric-window pivot highs of the sequence. -/
def symHighs (bar : Nat → Bar) (n L : Nat) : List Nat :=
  (List.range n).filter (isSymHigh bar n L)

/-- All symmetric-window pivot lows of the sequence. -/
def symLows (bar : Nat → Bar) (n L : Nat) : List Nat :=
  (List.range n).filter (isSymLow bar n L)

/-- Total number of symmetric-window pivots at lookback L. -/
def symCount (bar : Nat → Bar) (n L : Nat) : Nat :=
  (symHighs bar n L).length + (symLows bar n L).length

/-- Total number of pivots emitted by the canonical toggle scan at lookback L. -/
def toggleCount (bar : Nat → Bar) (n L : Nat) : Nat :=
  (pivotScan bar n L).highs.length + (pivotScan bar n L).lows.length

/-- The highs of the forward window (p, p+len], as a list. -/
def winHighs (bar : Nat → Bar) (p len : Nat) : List ℚ :=
  (List.range' (p + 1) len).map (fun j => (bar j).high)

/-- The lows of the forward window (p, p+len], as a list. -/
def winLows (bar : Nat → Bar) (p len : Nat) : List ℚ :=
  (List.range' (p + 1) len).map (fun j => (bar j).low)

/-- Indices of the pivots consumed by bullish events of an event list. -/
def bullIdx (evs : List Event) : List Nat :=
  (evs.filter (fun e => e.bull)).map Event.pivotIndex

/-- Indices of the pivots consumed by bearish events of an event list. -/
def bearIdx (evs : List Event) : List Nat :=
  (evs.filter (fun e => !e.bull)).map Event.pivotIndex

/-- Concrete bar sequence: the swing high at bar 0 is broken at bar 1,
before its confirmation window of length 2 has completed. -/
def exBarA : Nat → Bar :=
  fun j => if j = 0 then ⟨10, 0, 0⟩ else ⟨5, 1, if j = 1 then 11 else 0⟩

/-- Concrete bar sequence on which the toggle scan detects more pivots with
the larger lookback 2 than with lookback 1. -/
def exBarB : Nat → Bar :=
  fun j =>
    if j = 0 then ⟨2, 0, 0⟩ else if j = 1 then ⟨1, 1, 0⟩
    else if j = 2 then ⟨2, 1, 0⟩ else ⟨0, 0, 0⟩

/-- Concrete bar sequence for the append-stability boundary: with one bar
nothing is scanned, with a second bar appended a pivot appears at index 0. -/
def exBarC : Nat → Bar :=
  fun j => if j = 0 then ⟨2, 0, 0⟩ else ⟨1, 0, 0⟩

/-- Concrete one-bar sequence used with a non-positive lookback. -/
def exBarD : Nat → Bar := fun _ => ⟨1, 0, 0⟩

/-- Concrete channel with a defined run on indices 0 through 3 of a
five-cell array. -/
def exChan : Chan := fun j => if j ≤ 3 then some 7 else none

/-- Concrete write list with non-decreasing stops, as produced by events of
one channel processed in bar order. -/
def exWrites : List Write := [⟨0, 3, 5⟩, ⟨2, 4, 7⟩]

/-- Concrete two-bar sequence whose candidate bar qualifies simultaneously as
a Top and as a Bottom. -/
def exBarE : Nat → Bar := fun j => if j = 0 then ⟨10, 0, 0⟩ else ⟨5, 5, 0⟩

/-- Concrete classifier state: the first live pivot high is not yet eligible
at bar 1, the second one is. -/
def exCls : ClsState := ⟨[⟨5, 10⟩, ⟨0, 3⟩], [], Trend.neutral, []⟩

/-- Concrete classifier state with a bearish trend register and one eligible
live pivot high. -/
def exClsB : ClsState := ⟨[⟨0, 3⟩], [], Trend.bearish, []⟩

end SMC

section Scratch

open SMC

example :
    (pivotScan (fun j => if j = 0 then ⟨10, 0, 0⟩ else ⟨5, 1, if j = 1 then 11 else 0⟩) 3 2).highs
      = [⟨0, 10⟩] := by decide

example :
    (runLevel (fun j => if j = 0 then ⟨10, 0, 0⟩ else ⟨5, 1, if j = 1 then 11 else 0⟩) 3 2).events
      = [⟨0, 1, 10, false, true⟩] := by decide

example :
    toggleCount
      (fun j => if j = 0 then ⟨2, 0, 0⟩ else if j = 1 then ⟨1, 1, 0⟩
        else if j = 2 then ⟨2, 1, 0⟩ else ⟨0, 0, 0⟩) 5 1 = 1 := by decide

example :
    toggleCount
      (fun j => if j = 0 then ⟨2, 0, 0⟩ else if j = 1 then ⟨1, 1, 0⟩
        else if j = 2 then ⟨2, 1, 0⟩ else ⟨0, 0, 0⟩) 5 2 = 2 := by decide

example :
    (applyWrites 6 [⟨0, 3, 5⟩, ⟨2, 4, 7⟩] emptyChan) 1 = some 5 ∧
    (applyWrites 6 [⟨0, 3, 5⟩, ⟨2, 4, 7⟩] emptyChan) 2 = some 7 ∧
    (applyWrites 6 [⟨0, 3, 5⟩, ⟨2, 4, 7⟩] emptyChan) 5 = none := by
  refine ⟨?_, ?_, ?_⟩ <;> rfl

end Scratch

namespace SMC

/-- C9: because all pivots are collected in a completed first phase before any
break classification, a break can be recognised at a bar strictly before the
bar at which the pivot's forward confirmation window completes: on exBarA with
lookback 2, the pivot high at index 0 (confirmed only at evaluation index 2)
is already consumed by an event with breakIndex 1, and 1 < 0 + 2. -/
theorem break_before_confirmation :
    ∃ e ∈ (runLevel exBarA 3 2).events, e.breakIndex < e.pivotIndex + 2 := by
  decide

/-- C6, code evaluated at the failing input: a non-positive lookback is not
rejected.  With lookback 0 the scan runs normally, the empty forward window
behaves as maximum minus infinity and minimum plus infinity, a pivot high is
emitted at index 0, and the engine returns without any error. -/
theorem engine_accepts_nonpositive_lookback :
    (pivotScan exBarD 1 0).highs = [⟨0, 1⟩] ∧
    (runLevel exBarD 1 0).events = [] := by
  decide

/-- C7 counterexample: the claim asserts that appending bars reproduces the
same pivots with index at most nOld - L.  With exBarC, nOld = 1, nNew = 2 and
L = 1, the extended run confirms a pivot high at index 0 = nOld - L while the
original run has none, so the filtered pivot lists differ. -/
theorem append_stability_boundary_cex :
    ¬ ((pivotScan exBarC 2 1).highs.filter (fun pv => decide (pv.index ≤ 1 - 1)) =
       (pivotScan exBarC 1 1).highs.filter (fun pv => decide (pv.index ≤ 1 - 1))) := by
  decide

/-- C8 counterexample: on exBarB the canonical toggle scan emits 1 pivot with
lookback 1 but 2 pivots with the larger lookback 2, so increasing the
lookback can increase the number of detected pivots. -/
theorem lookback_monotone_cex :
    1 < 2 ∧ toggleCount exBarB 5 1 < toggleCount exBarB 5 2 := by
  decide

/-- Membership in a step-one range, in interval form. -/
lemma mem_range_one {s k m : Nat} : m ∈ List.range' s k ↔ s ≤ m ∧ m < s + k := by
  rw [List.mem_range']
  constructor
  · rintro ⟨i, hi, rfl⟩; omega
  · rintro ⟨h1, h2⟩; exact ⟨m - s, by omega, by omega⟩

/-- A bar that passes the symmetric-window high test at a larger lookback
also passes it at any smaller lookback. -/
lemma isSymHigh_mono (bar : Nat → Bar) (n : Nat) {L1 L2 i : Nat} (h12 : L1 ≤ L2)
    (h : isSymHigh bar n L2 i = true) : isSymHigh bar n L1 i = true := by
  simp only [isSymHigh, Bool.and_eq_true, decide_eq_true_eq, List.all_eq_true,
    Bool.or_eq_true] at h ⊢
  obtain ⟨⟨hL, hn⟩, hw⟩ := h
  refine ⟨⟨by omega, by omega⟩, ?_⟩
  intro j hj
  rw [mem_range_one] at hj
  exact hw j (mem_range_one.mpr (by omega))

/-- A bar that passes the symmetric-window low test at a larger lookback
also passes it at any smaller lookback. -/
lemma isSymLow_mono (bar : Nat → Bar) (n : Nat) {L1 L2 i : Nat} (h12 : L1 ≤ L2)
    (h : isSymLow bar n L2 i = true) : isSymLow bar n L1 i = true := by
  simp only [isSymLow, Bool.and_eq_true, decide_eq_true_eq, List.all_eq_true,
    Bool.or_eq_true] at h ⊢
  obtain ⟨⟨hL, hn⟩, hw⟩ := h
  refine ⟨⟨by omega, by omega⟩, ?_⟩
  intro j hj
  rw [mem_range_one] at hj
  exact hw j (mem_range_one.mpr (by omega))

/-- C8 amended: for the symmetric-window pivot detector of
smartMoneyConcepts.ts, holding the bar sequence fixed, a larger lookback
never detects more pivots (highs plus lows) than a smaller one. -/
theorem lookback_monotone_symmetric (bar : Nat → Bar) (n L1 L2 : Nat) (h12 : L1 ≤ L2) :
    symCount bar n L2 ≤ symCount bar n L1 := by
  unfold symCount symHighs symLows
  have h1 : ((List.range n).filter (isSymHigh bar n L2)).length ≤
      ((List.range n).filter (isSymHigh bar n L1)).length := by
    rw [← List.countP_eq_length_filter, ← List.countP_eq_length_filter]
    exact List.countP_mono_left (fun i _ hi => isSymHigh_mono bar n h12 hi)
  have h2 : ((List.range n).filter (isSymLow bar n L2)).length ≤
      ((List.range n).filter (isSymLow bar n L1)).length := by
    rw [← List.countP_eq_length_filter, ← List.countP_eq_length_filter]
    exact List.countP_mono_left (fun i _ hi => isSymLow_mono bar n h12 hi)
  omega

/-- C8 amended claim, applied at a concrete instance: on exBarB over five
bars, the symmetric-window pivot count at lookback 2 is at most the count at
lookback 1. -/
theorem lookback_monotone_symmetric_witness :
    symCount exBarB 5 2 ≤ symCount exBarB 5 1 :=
  lookback_monotone_symmetric exBarB 5 1 2 (by decide)

/-- The os register after one scan step, written out. -/
lemma scanStep_os (bar : Nat → Bar) (L : Nat) (s : ScanState) (i : Nat) :
    (scanStep bar L s i).os =
      (if ((bar (i - L)).high : WithBot ℚ) > maxHighWin bar (i - L) (i - (i - L)) then
        some OS.top
      else if ((bar (i - L)).low : WithTop ℚ) < minLowWin bar (i - L) (i - (i - L)) then
        some OS.bottom
      else s.os) := rfl

/-- The highs list after one scan step: a pivot high is appended exactly when
the os register toggles to Top. -/
lemma scanStep_highs (bar : Nat → Bar) (L : Nat) (s : ScanState) (i : Nat) :
    (scanStep bar L s i).highs =
      (if (scanStep bar L s i).os = some OS.top ∧ s.os ≠ some OS.top then
        s.highs ++ [⟨i - L, (bar (i - L)).high⟩]
      else s.highs) := rfl

/-- The lows list after one scan step: a pivot low is appended exactly when
the os register toggles to Bottom. -/
lemma scanStep_lows (bar : Nat → Bar) (L : Nat) (s : ScanState) (i : Nat) :
    (scanStep bar L s i).lows =
      (if (scanStep bar L s i).os = some OS.bottom ∧ s.os ≠ some OS.bottom then
        s.lows ++ [⟨i - L, (bar (i - L)).low⟩]
      else s.lows) := rfl

/-- C10: when the candidate bar qualifies simultaneously as a Top (its high
strictly exceeds the forward-window maximum) and as a Bottom (its low is
strictly below the forward-window minimum), the Top branch takes priority:
the os register becomes Top and no pivot-low is emitted for that bar; and in
general at most one pivot is emitted per evaluation index. -/
theorem scan_top_priority (bar : Nat → Bar) (L i : Nat) (s : ScanState)
    (htop : ((bar (i - L)).high : WithBot ℚ) > maxHighWin bar (i - L) (i - (i - L)))
    (hbot : ((bar (i - L)).low : WithTop ℚ) < minLowWin bar (i - L) (i - (i - L))) :
    (scanStep bar L s i).os = some OS.top ∧
    (scanStep bar L s i).lows = s.lows ∧
    ∀ t : ScanState, (scanStep bar L t i).highs = t.highs ∨ (scanStep bar L t i).lows = t.lows := by
  have hos : (scanStep bar L s i).os = some OS.top := by
    rw [scanStep_os, if_pos htop]
  have hnb : ¬ ((scanStep bar L s i).os = some OS.bottom ∧ s.os ≠ some OS.bottom) := by
    rintro ⟨h1, _⟩
    rw [hos] at h1
    exact OS.noConfusion (Option.some.inj h1)
  refine ⟨hos, by rw [scanStep_lows, if_neg hnb], ?_⟩
  intro t
  by_cases ht : (scanStep bar L t i).os = some OS.top
  · right
    rw [scanStep_lows, if_neg]
    rintro ⟨h1, _⟩
    rw [ht] at h1
    exact OS.noConfusion (Option.some.inj h1)
  · left
    rw [scanStep_highs, if_neg]
    rintro ⟨h1, _⟩
    exact ht h1

/-- C10 applied at a concrete doubly-qualifying bar: on exBarE with lookback
1 and evaluation index 1, both the Top and the Bottom test pass, the os
register becomes Top, and the lows list stays empty. -/
theorem scan_top_priority_witness :
    (scanStep exBarE 1 scanInit 1).os = some OS.top ∧
    (scanStep exBarE 1 scanInit 1).lows = scanInit.lows :=
  ⟨(scan_top_priority exBarE 1 1 scanInit (by decide) (by decide)).1,
   (scan_top_priority exBarE 1 1 scanInit (by decide) (by decide)).2.1⟩

/-- A fold of max over the coerced highs of an index list computes the WithBot
maximum of the mapped highs, joined with the initial accumulator. -/
lemma foldl_max_eq (bar : Nat → Bar) : ∀ (l : List Nat) (init : WithBot ℚ),
    l.foldl (fun a j => max a ((bar j).high : WithBot ℚ)) init
      = max init (l.map (fun j => (bar j).high)).maximum := by
  intro l
  induction l with
  | nil => intro init; simp [List.maximum_nil]
  | cons x xs ih =>
    intro init
    rw [List.foldl_cons, ih, List.map_cons, List.maximum_cons, max_assoc]

/-- A fold of min over the coerced lows of an index list computes the WithTop
minimum of the mapped lows, met with the initial accumulator. -/
lemma foldl_min_eq (bar : Nat → Bar) : ∀ (l : List Nat) (init : WithTop ℚ),
    l.foldl (fun a j => min a ((bar j).low : WithTop ℚ)) init
      = min init (l.map (fun j => (bar j).low)).minimum := by
  intro l
  induction l with
  | nil => intro init; simp [List.minimum_nil]
  | cons x xs ih =>
    intro init
    rw [List.foldl_cons, ih, List.map_cons, List.minimum_cons, min_assoc]

/-- The minus-infinity-initialised max fold of the source equals the maximum
of the window highs. -/
lemma maxHighWin_eq (bar : Nat → Bar) (p len : Nat) :
    maxHighWin bar p len = (winHighs bar p len).maximum := by
  unfold maxHighWin winHighs
  rw [foldl_max_eq]
  exact max_eq_right bot_le

/-- The plus-infinity-initialised min fold of the source equals the minimum
of the window lows. -/
lemma minLowWin_eq (bar : Nat → Bar) (p len : Nat) :
    minLowWin bar p len = (winLows bar p len).minimum := by
  unfold minLowWin winLows
  rw [foldl_min_eq]
  exact min_eq_right le_top

/-- C3: one step of the canonical scan at evaluation index i with candidate
p = i - L computes the window extrema over (p, i], becomes Top when the
candidate high strictly exceeds the window maximum, Bottom when the candidate
low is strictly below the window minimum, and otherwise retains the previous
state; a pivot high (low) is appended exactly when the state toggles to Top
(Bottom), so a bar whose state was already Top (Bottom) emits nothing; and
the full scan folds this step over the indices L through n - 1. -/
theorem scan_step_canonical (bar : Nat → Bar) (L i : Nat) (s : ScanState) (hLi : L ≤ i) :
    ((scanStep bar L s i).os =
      (if ((bar (i - L)).high : WithBot ℚ) > (winHighs bar (i - L) L).maximum then some OS.top
       else if ((bar (i - L)).low : WithTop ℚ) < (winLows bar (i - L) L).minimum then
         some OS.bottom
       else s.os)) ∧
    ((scanStep bar L s i).highs =
      s.highs ++ (if (scanStep bar L s i).os = some OS.top ∧ s.os ≠ some OS.top then
        [⟨i - L, (bar (i - L)).high⟩] else [])) ∧
    ((scanStep bar L s i).lows =
      s.lows ++ (if (scanStep bar L s i).os = some OS.bottom ∧ s.os ≠ some OS.bottom then
        [⟨i - L, (bar (i - L)).low⟩] else [])) ∧
    (s.os = some OS.top → (scanStep bar L s i).highs = s.highs) ∧
    (s.os = some OS.bottom → (scanStep bar L s i).lows = s.lows) ∧
    (∀ n : Nat, pivotScan bar n L = scanFrom bar L scanInit (List.range' L (n - L))) := by
  have hlen : i - (i - L) = L := Nat.sub_sub_self hLi
  refine ⟨?_, ?_, ?_, ?_, ?_, fun n => rfl⟩
  · rw [scanStep_os, hlen, maxHighWin_eq, minLowWin_eq]
  · rw [scanStep_highs]
    split <;> simp
  · rw [scanStep_lows]
    split <;> simp
  · intro h
    rw [scanStep_highs, if_neg]
    rintro ⟨_, h2⟩
    exact h2 h
  · intro h
    rw [scanStep_lows, if_neg]
    rintro ⟨_, h2⟩
    exact h2 h

/-- C3 applied at a concrete input: the first scan step of exBarA with
lookback 2 at evaluation index 2 toggles the state to Top using the maximum
of the window highs. -/
theorem scan_step_canonical_witness :
    (scanStep exBarA 2 scanInit 2).os =
      (if ((exBarA 0).high : WithBot ℚ) > (winHighs exBarA 0 2).maximum then some OS.top
       else if ((exBarA 0).low : WithTop ℚ) < (winLows exBarA 0 2).minimum then some OS.bottom
       else scanInit.os) :=
  (scan_step_canonical exBarA 2 2 scanInit (by decide)).1

/-- The matching condition of the bullish check in propositional form. -/
lemma bullBreakPred_iff (close : ℚ) (i : Nat) (pv : Pivot) :
    bullBreakPred close i pv = true ↔ (pv.index < i ∧ close > pv.price) := by
  simp [bullBreakPred]

/-- The matching condition of the bearish check in propositional form. -/
lemma bearBreakPred_iff (close : ℚ) (i : Nat) (pv : Pivot) :
    bearBreakPred close i pv = true ↔ (pv.index < i ∧ close < pv.price) := by
  simp [bearBreakPred]

/-- The bullish check either changes nothing or appends exactly one bullish
event. -/
lemma bullStep_events_shape (close : ℚ) (i : Nat) (s : ClsState) :
    ∃ ob : Option Event,
      (bullStep close i s).events = s.events ++ ob.toList ∧ ∀ e ∈ ob.toList, e.bull = true := by
  cases h : s.highs.find? (bullBreakPred close i) with
  | none => exact ⟨none, by simp [bullStep, h], by simp⟩
  | some pv =>
    refine ⟨some ⟨pv.index, i, pv.price, decide (s.trend = Trend.bearish), true⟩,
      by simp [bullStep, h], ?_⟩
    intro e he
    simp only [Option.toList_some, List.mem_singleton] at he
    rw [he]

/-- The bearish check either changes nothing or appends exactly one bearish
event. -/
lemma bearStep_events_shape (close : ℚ) (i : Nat) (s : ClsState) :
    ∃ ob : Option Event,
      (bearStep close i s).events = s.events ++ ob.toList ∧ ∀ e ∈ ob.toList, e.bull = false := by
  cases h : s.lows.find? (bearBreakPred close i) with
  | none => exact ⟨none, by simp [bearStep, h], by simp⟩
  | some pv =>
    refine ⟨some ⟨pv.index, i, pv.price, decide (s.trend = Trend.bullish), false⟩,
      by simp [bearStep, h], ?_⟩
    intro e he
    simp only [Option.toList_some, List.mem_singleton] at he
    rw [he]

/-- C1: the bullish check scans the live pivot-high list in insertion order
and acts on the first pivot with index below the bar and price below the
close: when no pivot matches, nothing changes; when the list splits as
l1 ++ pv :: l2 with every pivot of l1 failing the test and pv passing it,
exactly that pivot is removed, exactly one bullish event is emitted, and
scanning stops; the bearish check behaves symmetrically on pivot-lows with
price above the close; and a whole bar appends at most one bullish and at
most one bearish event. -/
theorem classifier_fifo_first (bar : Nat → Bar) (close : ℚ) (i : Nat) (s : ClsState) :
    ((∀ pv ∈ s.highs, ¬(pv.index < i ∧ close > pv.price)) → bullStep close i s = s) ∧
    (∀ l1 pv l2, s.highs = l1 ++ pv :: l2 →
      (∀ q ∈ l1, ¬(q.index < i ∧ close > q.price)) → (pv.index < i ∧ close > pv.price) →
      bullStep close i s =
        ⟨l1 ++ l2, s.lows, Trend.bullish,
          s.events ++ [⟨pv.index, i, pv.price, decide (s.trend = Trend.bearish), true⟩]⟩) ∧
    ((∀ pv ∈ s.lows, ¬(pv.index < i ∧ close < pv.price)) → bearStep close i s = s) ∧
    (∀ l1 pv l2, s.lows = l1 ++ pv :: l2 →
      (∀ q ∈ l1, ¬(q.index < i ∧ close < q.price)) → (pv.index < i ∧ close < pv.price) →
      bearStep close i s =
        ⟨s.highs, l1 ++ l2, Trend.bearish,
          s.events ++ [⟨pv.index, i, pv.price, decide (s.trend = Trend.bullish), false⟩]⟩) ∧
    (∃ ob obr : Option Event,
      (classifyStep bar s i).events = s.events ++ ob.toList ++ obr.toList ∧
      (∀ e ∈ ob.toList, e.bull = true) ∧ (∀ e ∈ obr.toList, e.bull = false)) := by
  refine ⟨?_, ?_, ?_, ?_, ?_⟩
  · intro h
    have hf : s.highs.find? (bullBreakPred close i) = none :=
      List.find?_eq_none.mpr (fun x hx hpx => h x hx ((bullBreakPred_iff close i x).mp hpx))
    simp [bullStep, hf]
  · intro l1 pv l2 hs hq hpv
    have hnot : pv ∉ l1 := fun hmem => hq pv hmem hpv
    have hf : s.highs.find? (bullBreakPred close i) = some pv := by
      refine List.find?_eq_some.mpr ⟨(bullBreakPred_iff close i pv).mpr hpv, l1, l2, hs, ?_⟩
      intro a ha
      simp only [Bool.not_eq_true']
      exact Bool.not_eq_true _ ▸ (fun hpa => hq a ha ((bullBreakPred_iff close i a).mp hpa))
    simp only [bullStep, hf]
    rw [hs, List.erase_append_right _ hnot, List.erase_cons_head]
  · intro h
    have hf : s.lows.find? (bearBreakPred close i) = none :=
      List.find?_eq_none.mpr (fun x hx hpx => h x hx ((bearBreakPred_iff close i x).mp hpx))
    simp [bearStep, hf]
  · intro l1 pv l2 hs hq hpv
    have hnot : pv ∉ l1 := fun hmem => hq pv hmem hpv
    have hf : s.lows.find? (bearBreakPred close i) = some pv := by
      refine List.find?_eq_some.mpr ⟨(bearBreakPred_iff close i pv).mpr hpv, l1, l2, hs, ?_⟩
      intro a ha
      simp only [Bool.not_eq_true']
      exact Bool.not_eq_true _ ▸ (fun hpa => hq a ha ((bearBreakPred_iff close i a).mp hpa))
    simp only [bearStep, hf]
    rw [hs, List.erase_append_right _ hnot, List.erase_cons_head]
  · obtain ⟨ob, hob, hb⟩ := bullStep_events_shape (bar i).close i s
    obtain ⟨obr, hobr, hbr⟩ :=
      bearStep_events_shape (bar i).close i (bullStep (bar i).close i s)
    exact ⟨ob, obr, by rw [classifyStep, hobr, hob], hb, hbr⟩

/-- C1 applied at a concrete input: at bar 1 with close 4, the first live
pivot high (index 5, not yet eligible) is skipped and the second (index 0,
price 3) is consumed, emitting exactly one bullish BOS event. -/
theorem classifier_fifo_first_witness :
    bullStep 4 1 exCls = ⟨[⟨5, 10⟩], [], Trend.bullish, [⟨0, 1, 3, false, true⟩]⟩ := by
  have h := (classifier_fifo_first exBarA 4 1 exCls).2.1 [⟨5, 10⟩] ⟨0, 3⟩ []
    rfl (by decide) (by decide)
  simpa [exCls] using h

/-- C2: an accepted bullish break is CHoCH exactly when the register was
Bearish immediately prior and always sets the register to Bullish; an
accepted bearish break is CHoCH exactly when the register was Bullish and
always sets it to Bearish; when a check accepts nothing it leaves the whole
state, including the register, unchanged; and a break accepted from the
Neutral register is always BOS. -/
theorem trend_register_rules (close : ℚ) (i : Nat) (s : ClsState) :
    ((bullStep close i s).events = s.events → bullStep close i s = s) ∧
    (∀ e, (bullStep close i s).events = s.events ++ [e] →
      e.choch = decide (s.trend = Trend.bearish) ∧ e.bull = true ∧
      (bullStep close i s).trend = Trend.bullish) ∧
    ((bearStep close i s).events = s.events → bearStep close i s = s) ∧
    (∀ e, (bearStep close i s).events = s.events ++ [e] →
      e.choch = decide (s.trend = Trend.bullish) ∧ e.bull = false ∧
      (bearStep close i s).trend = Trend.bearish) ∧
    (s.trend = Trend.neutral →
      ∀ e, ((bullStep close i s).events = s.events ++ [e] ∨
            (bearStep close i s).events = s.events ++ [e]) → e.choch = false) := by
  have hbull1 : (bullStep close i s).events = s.events → bullStep close i s = s := by
    intro heq
    cases h : s.highs.find? (bullBreakPred close i) with
    | none => simp [bullStep, h]
    | some pv =>
      simp only [bullStep, h] at heq
      simp at heq
  have hbull2 : ∀ e, (bullStep close i s).events = s.events ++ [e] →
      e.choch = decide (s.trend = Trend.bearish) ∧ e.bull = true ∧
      (bullStep close i s).trend = Trend.bullish := by
    intro e heq
    cases h : s.highs.find? (bullBreakPred close i) with
    | none =>
      simp only [bullStep, h] at heq
      simp at heq
    | some pv =>
      simp only [bullStep, h] at heq ⊢
      have he : (⟨pv.index, i, pv.price, decide (s.trend = Trend.bearish), true⟩ : Event) = e := by
        have h2 := List.append_cancel_left heq
        exact (List.cons.injEq _ _ _ _).mp h2 |>.1
      rw [← he]
      exact ⟨rfl, rfl, trivial⟩
  have hbear1 : (bearStep close i s).events = s.events → bearStep close i s = s := by
    intro heq
    cases h : s.lows.find? (bearBreakPred close i) with
    | none => simp [bearStep, h]
    | some pv =>
      simp only [bearStep, h] at heq
      simp at heq
  have hbear2 : ∀ e, (bearStep close i s).events = s.events ++ [e] →
      e.choch = decide (s.trend = Trend.bullish) ∧ e.bull = false ∧
      (bearStep close i s).trend = Trend.bearish := by
    intro e heq
    cases h : s.lows.find? (bearBreakPred close i) with
    | none =>
      simp only [bearStep, h] at heq
      simp at heq
    | some pv =>
      simp only [bearStep, h] at heq ⊢
      have he : (⟨pv.index, i, pv.price, decide (s.trend = Trend.bullish), false⟩ : Event) = e := by
        have h2 := List.append_cancel_left heq
        exact (List.cons.injEq _ _ _ _).mp h2 |>.1
      rw [← he]
      exact ⟨rfl, rfl, trivial⟩
  refine ⟨hbull1, hbull2, hbear1, hbear2, ?_⟩
  intro ht e hor
  rcases hor with h | h
  · rw [(hbull2 e h).1, ht]
    decide
  · rw [(hbear2 e h).1, ht]
    decide

/-- C2 applied at a concrete input: from a bearish register, the bullish
break of the live pivot high at index 0 is classified CHoCH and flips the
register to Bullish. -/
theorem trend_register_rules_witness :
    (⟨0, 1, 3, true, true⟩ : Event).choch = decide (exClsB.trend = Trend.bearish) ∧
    (⟨0, 1, 3, true, true⟩ : Event).bull = true ∧
    (bullStep 4 1 exClsB).trend = Trend.bullish :=
  (trend_register_rules 4 1 exClsB).2.1 ⟨0, 1, 3, true, true⟩ (by decide)

/-- One scan step either leaves the highs unchanged or appends the candidate
pivot. -/
lemma scanStep_highs_cases (bar : Nat → Bar) (L : Nat) (s : ScanState) (i : Nat) :
    (scanStep bar L s i).highs = s.highs ∨
    (scanStep bar L s i).highs = s.highs ++ [⟨i - L, (bar (i - L)).high⟩] := by
  rw [scanStep_highs]
  split
  · right; rfl
  · left; rfl

/-- One scan step either leaves the lows unchanged or appends the candidate
pivot. -/
lemma scanStep_lows_cases (bar : Nat → Bar) (L : Nat) (s : ScanState) (i : Nat) :
    (scanStep bar L s i).lows = s.lows ∨
    (scanStep bar L s i).lows = s.lows ++ [⟨i - L, (bar (i - L)).low⟩] := by
  rw [scanStep_lows]
  split
  · right; rfl
  · left; rfl

/-- Along the scan, pivot indices grow strictly: starting from a state whose
pivot indices are strictly sorted and all confirmable before the remaining
evaluation indices, the final pivot index lists are strictly sorted. -/
lemma scanFrom_pairwise (bar : Nat → Bar) (L : Nat) :
    ∀ (l : List Nat) (s : ScanState),
      l.Pairwise (· < ·) → (∀ i ∈ l, L ≤ i) →
      (∀ pv ∈ s.highs, ∀ i ∈ l, pv.index + L < i) →
      (∀ pv ∈ s.lows, ∀ i ∈ l, pv.index + L < i) →
      (s.highs.map Pivot.index).Pairwise (· < ·) →
      (s.lows.map Pivot.index).Pairwise (· < ·) →
      ((scanFrom bar L s l).highs.map Pivot.index).Pairwise (· < ·) ∧
      ((scanFrom bar L s l).lows.map Pivot.index).Pairwise (· < ·) := by
  intro l
  induction l with
  | nil => intro s _ _ _ _ h5 h6; exact ⟨h5, h6⟩
  | cons i t ih =>
    intro s hpw hge hbH hbL hsH hsL
    have hstep : scanFrom bar L s (i :: t) = scanFrom bar L (scanStep bar L s i) t := rfl
    rw [hstep]
    have hLi : L ≤ i := hge i (List.mem_cons_self i t)
    have hit : ∀ j ∈ t, i < j := (List.pairwise_cons.mp hpw).1
    have hnewH : ∀ pv ∈ (scanStep bar L s i).highs, ∀ j ∈ t, pv.index + L < j := by
      intro pv hpv j hj
      rcases scanStep_highs_cases bar L s i with hc | hc <;> rw [hc] at hpv
      · exact Nat.lt_trans (hbH pv hpv i (List.mem_cons_self i t)) (hit j hj)
      · rcases List.mem_append.mp hpv with hm | hm
        · exact Nat.lt_trans (hbH pv hm i (List.mem_cons_self i t)) (hit j hj)
        · have : pv = ⟨i - L, (bar (i - L)).high⟩ := List.mem_singleton.mp hm
          rw [this]
          have := hit j hj
          show i - L + L < j
          omega
    have hnewL : ∀ pv ∈ (scanStep bar L s i).lows, ∀ j ∈ t, pv.index + L < j := by
      intro pv hpv j hj
      rcases scanStep_lows_cases bar L s i with hc | hc <;> rw [hc] at hpv
      · exact Nat.lt_trans (hbL pv hpv i (List.mem_cons_self i t)) (hit j hj)
      · rcases List.mem_append.mp hpv with hm | hm
        · exact Nat.lt_trans (hbL pv hm i (List.mem_cons_self i t)) (hit j hj)
        · have : pv = ⟨i - L, (bar (i - L)).low⟩ := List.mem_singleton.mp hm
          rw [this]
          have := hit j hj
          show i - L + L < j
          omega
    have hpwH : ((scanStep bar L s i).highs.map Pivot.index).Pairwise (· < ·) := by
      rcases scanStep_highs_cases bar L s i with hc | hc <;> rw [hc]
      · exact hsH
      · rw [List.map_append]
        rw [List.pairwise_append]
        refine ⟨hsH, List.pairwise_singleton _ _, ?_⟩
        intro a ha b hb
        simp only [List.map_cons, List.map_nil, List.mem_singleton] at hb
        rcases List.mem_map.mp ha with ⟨pv, hpv, rfl⟩
        have := hbH pv hpv i (List.mem_cons_self i t)
        subst hb
        show pv.index < i - L
        omega
    have hpwL : ((scanStep bar L s i).lows.map Pivot.index).Pairwise (· < ·) := by
      rcases scanStep_lows_cases bar L s i with hc | hc <;> rw [hc]
      · exact hsL
      · rw [List.map_append]
        rw [List.pairwise_append]
        refine ⟨hsL, List.pairwise_singleton _ _, ?_⟩
        intro a ha b hb
        simp only [List.map_cons, List.map_nil, List.mem_singleton] at hb
        rcases List.mem_map.mp ha with ⟨pv, hpv, rfl⟩
        have := hbL pv hpv i (List.mem_cons_self i t)
        subst hb
        show pv.index < i - L
        omega
    exact ih (scanStep bar L s i) (List.pairwise_cons.mp hpw).2
      (fun j hj => hge j (List.mem_cons_of_mem i hj)) hnewH hnewL hpwH hpwL

/-- The pivot index lists produced by the full scan are strictly sorted, so
in particular duplicate-free. -/
lemma pivotScan_nodup (bar : Nat → Bar) (n L : Nat) :
    ((pivotScan bar n L).highs.map Pivot.index).Nodup ∧
    ((pivotScan bar n L).lows.map Pivot.index).Nodup := by
  have h := scanFrom_pairwise bar L (List.range' L (n - L)) scanInit
    (List.pairwise_lt_range' L (n - L))
    (fun i hi => (mem_range_one.mp hi).1)
    (fun pv hpv => by simp [scanInit] at hpv)
    (fun pv hpv => by simp [scanInit] at hpv)
    (by simp [scanInit])
    (by simp [scanInit])
  exact ⟨h.1.imp (fun hab => Nat.ne_of_lt hab), h.2.imp (fun hab => Nat.ne_of_lt hab)⟩

/-- The bullish check moves the index of the consumed pivot high from the
live list into the bullish event list, leaving the multiset of indices
unchanged; the bearish side of the state is untouched. -/
lemma bullStep_perm (close : ℚ) (i : Nat) (s : ClsState) :
    ((bullStep close i s).highs.map Pivot.index ++ bullIdx (bullStep close i s).events).Perm
      (s.highs.map Pivot.index ++ bullIdx s.events) ∧
    (bullStep close i s).lows = s.lows ∧
    bearIdx (bullStep close i s).events = bearIdx s.events := by
  cases h : s.highs.find? (bullBreakPred close i) with
  | none => simp [bullStep, h]
  | some pv =>
    have hmem : pv ∈ s.highs := List.mem_of_find?_eq_some h
    refine ⟨?_, by simp [bullStep, h], by simp [bullStep, h, bearIdx]⟩
    simp only [bullStep, h]
    have hbull : bullIdx (s.events ++
        [⟨pv.index, i, pv.price, decide (s.trend = Trend.bearish), true⟩]) =
        bullIdx s.events ++ [pv.index] := by
      simp [bullIdx]
    rw [hbull, ← List.append_assoc]
    refine List.Perm.trans List.perm_append_comm ?_
    show ((pv.index :: (s.highs.erase pv).map Pivot.index) ++ bullIdx s.events).Perm
      (s.highs.map Pivot.index ++ bullIdx s.events)
    exact List.Perm.append_right _ (((List.perm_cons_erase hmem).map Pivot.index).symm)

/-- The bearish check moves the index of the consumed pivot low from the
live list into the bearish event list, leaving the multiset of indices
unchanged; the bullish side of the state is untouched. -/
lemma bearStep_perm (close : ℚ) (i : Nat) (s : ClsState) :
    ((bearStep close i s).lows.map Pivot.index ++ bearIdx (bearStep close i s).events).Perm
      (s.lows.map Pivot.index ++ bearIdx s.events) ∧
    (bearStep close i s).highs = s.highs ∧
    bullIdx (bearStep close i s).events = bullIdx s.events := by
  cases h : s.lows.find? (bearBreakPred close i) with
  | none => simp [bearStep, h]
  | some pv =>
    have hmem : pv ∈ s.lows := List.mem_of_find?_eq_some h
    refine ⟨?_, by simp [bearStep, h], by simp [bearStep, h, bullIdx]⟩
    simp only [bearStep, h]
    have hbear : bearIdx (s.events ++
        [⟨pv.index, i, pv.price, decide (s.trend = Trend.bullish), false⟩]) =
        bearIdx s.events ++ [pv.index] := by
      simp [bearIdx]
    rw [hbear, ← List.append_assoc]
    refine List.Perm.trans List.perm_append_comm ?_
    show ((pv.index :: (s.lows.erase pv).map Pivot.index) ++ bearIdx s.events).Perm
      (s.lows.map Pivot.index ++ bearIdx s.events)
    exact List.Perm.append_right _ (((List.perm_cons_erase hmem).map Pivot.index).symm)

/-- Over any run of the classifier, live pivot indices plus consumed event
indices form a permutation of the initial live pivot indices, separately for
the bullish (highs) and bearish (lows) families. -/
lemma classifyFrom_perm (bar : Nat → Bar) :
    ∀ (l : List Nat) (s : ClsState),
      ((classifyFrom bar s l).highs.map Pivot.index ++
        bullIdx (classifyFrom bar s l).events).Perm
        (s.highs.map Pivot.index ++ bullIdx s.events) ∧
      ((classifyFrom bar s l).lows.map Pivot.index ++
        bearIdx (classifyFrom bar s l).events).Perm
        (s.lows.map Pivot.index ++ bearIdx s.events) := by
  intro l
  induction l with
  | nil => intro s; exact ⟨List.Perm.refl _, List.Perm.refl _⟩
  | cons i t ih =>
    intro s
    have hstep : classifyFrom bar s (i :: t) =
        classifyFrom bar (classifyStep bar s i) t := rfl
    rw [hstep]
    obtain ⟨ihH, ihL⟩ := ih (classifyStep bar s i)
    obtain ⟨bH, bLeq, bBr⟩ := bullStep_perm (bar i).close i s
    obtain ⟨rL, rHeq, rBu⟩ := bearStep_perm (bar i).close i (bullStep (bar i).close i s)
    constructor
    · refine ihH.trans ?_
      have : (classifyStep bar s i).highs.map Pivot.index ++
          bullIdx (classifyStep bar s i).events =
          (bullStep (bar i).close i s).highs.map Pivot.index ++
          bullIdx (bullStep (bar i).close i s).events := by
        rw [classifyStep] at *
        rw [rHeq, rBu]
      rw [this]
      exact bH
    · refine ihL.trans ?_
      have h1 : (classifyStep bar s i).lows.map Pivot.index ++
          bearIdx (classifyStep bar s i).events =
          (bearStep (bar i).close i (bullStep (bar i).close i s)).lows.map Pivot.index ++
          bearIdx (bearStep (bar i).close i (bullStep (bar i).close i s)).events := rfl
      rw [h1]
      refine rL.trans ?_
      rw [bLeq, bBr]

/-- Every event appended by the bullish check of bar i consumes a pivot with
index below i and is stamped with breakIndex i. -/
lemma bullStep_new_event (close : ℚ) (i : Nat) (s : ClsState) :
    ∀ e ∈ (bullStep close i s).events,
      e ∈ s.events ∨ (e.pivotIndex < i ∧ e.breakIndex = i) := by
  intro e he
  cases h : s.highs.find? (bullBreakPred close i) with
  | none =>
    rw [bullStep, h] at he
    exact Or.inl he
  | some pv =>
    rw [bullStep, h] at he
    simp only [List.mem_append, List.mem_singleton] at he
    rcases he with he | he
    · exact Or.inl he
    · right
      have hp := List.find?_some h
      rw [bullBreakPred_iff] at hp
      rw [he]
      exact ⟨hp.1, rfl⟩

/-- Every event appended by the bearish check of bar i consumes a pivot with
index below i and is stamped with breakIndex i. -/
lemma bearStep_new_event (close : ℚ) (i : Nat) (s : ClsState) :
    ∀ e ∈ (bearStep close i s).events,
      e ∈ s.events ∨ (e.pivotIndex < i ∧ e.breakIndex = i) := by
  intro e he
  cases h : s.lows.find? (bearBreakPred close i) with
  | none =>
    rw [bearStep, h] at he
    exact Or.inl he
  | some pv =>
    rw [bearStep, h] at he
    simp only [List.mem_append, List.mem_singleton] at he
    rcases he with he | he
    · exact Or.inl he
    · right
      have hp := List.find?_some h
      rw [bearBreakPred_iff] at hp
      rw [he]
      exact ⟨hp.1, rfl⟩

/-- Along any run of the classifier, every emitted event breaks a pivot at a
bar strictly after the pivot index. -/
lemma classifyFrom_pivot_lt (bar : Nat → Bar) :
    ∀ (l : List Nat) (s : ClsState),
      (∀ e ∈ s.events, e.pivotIndex < e.breakIndex) →
      ∀ e ∈ (classifyFrom bar s l).events, e.pivotIndex < e.breakIndex := by
  intro l
  induction l with
  | nil => intro s hs; exact hs
  | cons i t ih =>
    intro s hs
    have hstep : classifyFrom bar s (i :: t) =
        classifyFrom bar (classifyStep bar s i) t := rfl
    rw [hstep]
    apply ih
    intro e he
    rcases bearStep_new_event (bar i).close i (bullStep (bar i).close i s) e he with
      he2 | ⟨h1, h2⟩
    · rcases bullStep_new_event (bar i).close i s e he2 with he3 | ⟨h1, h2⟩
      · exact hs e he3
      · omega
    · omega

/-- C4: in a full run, every emitted event has pivotIndex strictly below
breakIndex, and each live pivot is consumed by at most one event: the pivot
indices consumed by bullish events are pairwise distinct, and so are the
pivot indices consumed by bearish events. -/
theorem pivot_consumed_at_most_once (bar : Nat → Bar) (n L : Nat) :
    (∀ e ∈ (runLevel bar n L).events, e.pivotIndex < e.breakIndex) ∧
    (bullIdx (runLevel bar n L).events).Nodup ∧
    (bearIdx (runLevel bar n L).events).Nodup := by
  obtain ⟨hH, hL⟩ := pivotScan_nodup bar n L
  obtain ⟨pH, pL⟩ := classifyFrom_perm bar (List.range n)
    ⟨(pivotScan bar n L).highs, (pivotScan bar n L).lows, Trend.neutral, []⟩
  refine ⟨?_, ?_, ?_⟩
  · exact classifyFrom_pivot_lt bar (List.range n) _ (fun e he => by simp at he)
  · have hnd : ((pivotScan bar n L).highs.map Pivot.index ++ bullIdx []).Nodup := by
      simpa [bullIdx] using hH
    exact (pH.nodup_iff.mpr hnd).of_append_right
  · have hnd : ((pivotScan bar n L).lows.map Pivot.index ++ bearIdx []).Nodup := by
      simpa [bearIdx] using hL
    exact (pL.nodup_iff.mpr hnd).of_append_right

/-- A successful downward run scan lands on a defined cell. -/
lemma findRunStart_isSome (c : Chan) :
    ∀ k r, findRunStart c k = some r → (c r).isSome := by
  intro k
  induction k with
  | zero =>
    intro r h
    rw [findRunStart] at h
    split at h
    · cases h
      assumption
    · cases h
  | succ k ih =>
    intro r h
    rw [findRunStart] at h
    split at h
    · split at h
      · cases h
        exact ih r (by assumption)
      · cases h
        assumption
    · cases h

/-- An undefined cell at the scan origin yields no run. -/
lemma findRunStart_none (c : Chan) (k : Nat) (h : c k = none) :
    findRunStart c k = none := by
  cases k with
  | zero => rw [findRunStart, if_neg (by simp [h])]
  | succ k => rw [findRunStart, if_neg (by simp [h])]

/-- Characterisation of the downward run scan: if the cells from a through k
are all defined and the cell below a is undefined (or a is 0), the scan finds
exactly a. -/
lemma findRunStart_spec (c : Chan) :
    ∀ k a, a ≤ k → (∀ j, a ≤ j → j ≤ k → (c j).isSome) →
      (a = 0 ∨ c (a - 1) = none) → findRunStart c k = some a := by
  intro k
  induction k with
  | zero =>
    intro a ha hdef _
    have ha0 : a = 0 := Nat.le_zero.mp ha
    subst ha0
    rw [findRunStart, if_pos (hdef 0 (Nat.le_refl 0) (Nat.le_refl 0))]
  | succ k ih =>
    intro a ha hdef hleft
    rw [findRunStart, if_pos (hdef (k + 1) ha (Nat.le_refl _))]
    rcases Nat.lt_or_ge a (k + 1) with hak | hak
    · have hik : findRunStart c k = some a :=
        ih a (by omega) (fun j h1 h2 => hdef j h1 (by omega)) hleft
      rw [hik]
    · have hae : a = k + 1 := by omega
      subst hae
      rcases hleft with h0 | hnone
      · omega
      · have : findRunStart c k = none := by
          apply findRunStart_none
          simpa using hnone
        rw [this]

/-- The forward run scan stays on defined cells. -/
lemma findRunEndAux_isSome (c : Chan) (n : Nat) :
    ∀ fuel e, (c e).isSome → (c (findRunEndAux c n e fuel)).isSome := by
  intro fuel
  induction fuel with
  | zero => intro e h; exact h
  | succ fuel ih =>
    intro e h
    rw [findRunEndAux]
    split
    · exact ih (e + 1) (by tauto)
    · exact h

/-- Characterisation of the forward run scan: starting inside a maximal
defined run ending at b below n, the scan stops exactly at b. -/
lemma findRunEndAux_spec (c : Chan) (n b : Nat) (hbn : b < n)
    (hstop : b + 1 = n ∨ c (b + 1) = none) :
    ∀ fuel e, e ≤ b → (∀ j, e ≤ j → j ≤ b → (c j).isSome) → b - e ≤ fuel →
      findRunEndAux c n e fuel = b := by
  intro fuel
  induction fuel with
  | zero =>
    intro e heb _ hfuel
    have : e = b := by omega
    rw [findRunEndAux, this]
  | succ fuel ih =>
    intro e heb hdef hfuel
    rcases Nat.lt_or_ge e b with heb2 | heb2
    · rw [findRunEndAux,
        if_pos ⟨by omega, hdef (e + 1) (by omega) (by omega)⟩]
      exact ih (e + 1) (by omega) (fun j h1 h2 => hdef j (by omega) h2) (by omega)
    · have hee : e = b := by omega
      subst hee
      rw [findRunEndAux, if_neg]
      rintro ⟨h1, h2⟩
      rcases hstop with h3 | h3
      · omega
      · rw [h3] at h2
        cases h2

/-- When every defined cell lies at or below the write stop, the truncation
pass of writeRange deletes only cells that the write immediately refills, so
writeRange acts as a plain interval overwrite. -/
lemma writeRange_overwrite (n : Nat) (c : Chan) (start stop : Nat) (price : ℚ)
    (hss : start ≤ stop) (hbound : ∀ j, (c j).isSome → j ≤ stop) :
    ∀ j, writeRange n c start stop price j =
      if start ≤ j ∧ j ≤ stop ∧ j < n then some price else c j := by
  intro j
  rw [writeRange]
  by_cases hin : start ≤ j ∧ j ≤ stop ∧ j < n
  · rw [if_pos hin, if_pos hin]
  · rw [if_neg hin, if_neg hin]
    rw [truncatePrior]
    cases hr : findRunStart c (start - 1) with
    | none => rfl
    | some r =>
      have hrs : (c r).isSome := findRunStart_isSome c (start - 1) r hr
      have hes : (c (findRunEnd c n r)).isSome :=
        findRunEndAux_isSome c n (n - r) r hrs
      have hestop : findRunEnd c n r ≤ stop := hbound _ hes
      simp only []
      split
      · show (if start ≤ j ∧ j ≤ findRunEnd c n r ∧ j < n then none else c j) = c j
        rw [if_neg]
        rintro ⟨h1, h2, h3⟩
        exact hin ⟨h1, by omega, h3⟩
      · rfl

/-- Folding writeRange over writes with non-decreasing stops realises the
last-covering-write semantics relative to the starting channel. -/
lemma applyWrites_or (n : Nat) :
    ∀ (ws : List Write) (c : Chan) (B : Nat),
      ws.Pairwise (fun w1 w2 => w1.stop ≤ w2.stop) →
      (∀ w ∈ ws, w.start ≤ w.stop) →
      (∀ w ∈ ws, B ≤ w.stop) →
      (∀ j, (c j).isSome → j ≤ B) →
      ∀ j, j < n → applyWrites n ws c j = (lastCover ws j).or (c j) := by
  intro ws
  induction ws with
  | nil =>
    intro c B _ _ _ _ j _
    simp [applyWrites, lastCover]
  | cons w ws ih =>
    intro c B hpw hss hB hbound j hj
    have hwB : B ≤ w.stop := hB w (List.mem_cons_self w ws)
    have hover := writeRange_overwrite n c w.start w.stop w.price
      (hss w (List.mem_cons_self w ws)) (fun j2 h2 => Nat.le_trans (hbound j2 h2) hwB)
    have hstep : applyWrites n (w :: ws) c =
        applyWrites n ws (writeRange n c w.start w.stop w.price) := rfl
    rw [hstep]
    have hbound2 : ∀ j2, ((writeRange n c w.start w.stop w.price) j2).isSome → j2 ≤ w.stop := by
      intro j2 h2
      rw [hover j2] at h2
      by_cases hin : w.start ≤ j2 ∧ j2 ≤ w.stop ∧ j2 < n
      · exact hin.2.1
      · rw [if_neg hin] at h2
        exact Nat.le_trans (hbound j2 h2) hwB
    have hrec := ih (writeRange n c w.start w.stop w.price) w.stop
      (List.pairwise_cons.mp hpw).2 (fun w2 h2 => hss w2 (List.mem_cons_of_mem w h2))
      (fun w2 h2 => (List.pairwise_cons.mp hpw).1 w2 h2)
      hbound2 j hj
    rw [hrec, hover j]
    have hlast : lastCover (w :: ws) j =
        (lastCover ws j).or (if coversW w j then some w.price else none) := by
      rw [lastCover, lastCover]
      have : (w :: ws).reverse = ws.reverse ++ [w] := by simp
      rw [this, List.find?_append]
      cases hf : ws.reverse.find? (fun w2 => coversW w2 j) with
      | some v => simp
      | none =>
        by_cases hcw : coversW w j
        · simp [List.find?_cons, hcw]
        · simp [List.find?_cons, hcw]
    rw [hlast]
    cases hlc : lastCover ws j with
    | some v => simp
    | none =>
      by_cases hcw : coversW w j = true
      · have hin : w.start ≤ j ∧ j ≤ w.stop ∧ j < n := by
          rw [coversW, Bool.and_eq_true, decide_eq_true_eq, decide_eq_true_eq] at hcw
          exact ⟨hcw.1, hcw.2, hj⟩
        simp [hin, hcw]
      · have hin : ¬ (w.start ≤ j ∧ j ≤ w.stop ∧ j < n) := by
          rw [coversW, Bool.and_eq_true, decide_eq_true_eq, decide_eq_true_eq] at hcw
          tauto
        simp [hin, hcw]

/-- C5: the truncation pass of writeRange cuts a prior contiguous defined run
that reaches the cell before the new start and extends to the start or
beyond so that it ends exactly one index before the new start; consequently,
processing all writes of one channel in bar-index order (non-decreasing
stops, each start at most its stop) over an initially empty channel stores at
every in-range bar index exactly the price of the most recently written
range covering it, never a stale earlier value. -/
theorem channel_overlap_last_write_wins :
    (∀ (n : Nat) (c : Chan) (start a b : Nat),
      1 ≤ start → a < start → start ≤ b → b < n →
      (∀ j, a ≤ j → j ≤ b → (c j).isSome) →
      (a = 0 ∨ c (a - 1) = none) →
      (b + 1 = n ∨ c (b + 1) = none) →
      ∀ j, truncatePrior n c start j = if start ≤ j ∧ j ≤ b then none else c j) ∧
    (∀ (n : Nat) (ws : List Write),
      ws.Pairwise (fun w1 w2 => w1.stop ≤ w2.stop) →
      (∀ w ∈ ws, w.start ≤ w.stop) →
      ∀ j, j < n → applyWrites n ws emptyChan j = lastCover ws j) := by
  constructor
  · intro n c start a b h1 h2 h3 h4 hdef hleft hright j
    have hrs : findRunStart c (start - 1) = some a :=
      findRunStart_spec c (start - 1) a (by omega)
        (fun j2 hj1 hj2 => hdef j2 hj1 (by omega)) hleft
    have hre : findRunEnd c n a = b := by
      rw [findRunEnd]
      exact findRunEndAux_spec c n b h4 hright (n - a) a (by omega)
        (fun j2 hj1 hj2 => hdef j2 hj1 hj2) (by omega)
    simp only [truncatePrior, hrs, hre]
    rw [if_pos h3]
    by_cases hjb : start ≤ j ∧ j ≤ b
    · rw [if_pos ⟨hjb.1, hjb.2, by omega⟩, if_pos hjb]
    · rw [if_neg (fun hx => hjb ⟨hx.1, hx.2.1⟩), if_neg hjb]
  · intro n ws hpw hss j hj
    have h := applyWrites_or n ws emptyChan 0 hpw hss (fun w _ => Nat.zero_le _)
      (fun j2 h2 => by simp [emptyChan] at h2) j hj
    rw [h]
    cases lastCover ws j <;> simp [emptyChan]

/-- C5 applied at concrete inputs: truncating before a write starting at
index 2 empties cell 2 of the prior run covering cells 0 through 3, and
applying the two overlapping writes of exWrites to an empty five-cell
channel leaves at index 2 exactly the price of the later write. -/
theorem channel_overlap_last_write_wins_witness :
    truncatePrior 5 exChan 2 2 = none ∧
    applyWrites 5 exWrites emptyChan 2 = lastCover exWrites 2 := by
  constructor
  · have h := (channel_overlap_last_write_wins.1 5 exChan 2 0 3 (by omega) (by omega)
      (by omega) (by omega) (fun j h1 h2 => by simp [exChan, h2]) (Or.inl rfl)
      (Or.inr rfl)) 2
    simpa using h
  · exact (channel_overlap_last_write_wins.2 5 exWrites
      (by decide) (by decide)) 2 (by omega)

/-- A fold over an index list is unchanged when the two step functions agree
on every visited element. -/
lemma foldl_congr_fn {α : Type} (f g : α → Nat → α) :
    ∀ (l : List Nat) (a : α), (∀ b ∈ l, ∀ x, f x b = g x b) →
      l.foldl f a = l.foldl g a := by
  intro l
  induction l with
  | nil => intro a _; rfl
  | cons b t ih =>
    intro a h
    rw [List.foldl_cons, List.foldl_cons, h b (List.mem_cons_self b t) a]
    exact ih _ (fun b2 h2 x => h b2 (List.mem_cons_of_mem b h2) x)

/-- One scan step reads the bar sequence only at indices up to i, so two
sequences that agree there produce the same step. -/
lemma scanStep_congr (bar bar' : Nat → Bar) (L i : Nat) (s : ScanState)
    (hLi : L ≤ i) (hagree : ∀ j, j ≤ i → bar' j = bar j) :
    scanStep bar' L s i = scanStep bar L s i := by
  have hp : i - L ≤ i := Nat.sub_le i L
  have hbar : bar' (i - L) = bar (i - L) := hagree _ hp
  have hmax : maxHighWin bar' (i - L) (i - (i - L)) = maxHighWin bar (i - L) (i - (i - L)) := by
    unfold maxHighWin
    apply foldl_congr_fn
    intro j hj x
    rw [mem_range_one] at hj
    rw [hagree j (by omega)]
  have hmin : minLowWin bar' (i - L) (i - (i - L)) = minLowWin bar (i - L) (i - (i - L)) := by
    unfold minLowWin
    apply foldl_congr_fn
    intro j hj x
    rw [mem_range_one] at hj
    rw [hagree j (by omega)]
  simp only [scanStep, hbar, hmax, hmin]

/-- A scan over evaluation indices below m is unchanged when the two bar
sequences agree below m. -/
lemma scanFrom_congr (bar bar' : Nat → Bar) (L m : Nat)
    (hagree : ∀ j, j < m → bar' j = bar j) :
    ∀ (l : List Nat) (s : ScanState), (∀ i ∈ l, L ≤ i) → (∀ i ∈ l, i < m) →
      scanFrom bar' L s l = scanFrom bar L s l := by
  intro l
  induction l with
  | nil => intro s _ _; rfl
  | cons i t ih =>
    intro s hL hm
    have h1 : scanFrom bar' L s (i :: t) = scanFrom bar' L (scanStep bar' L s i) t := rfl
    have h2 : scanFrom bar L s (i :: t) = scanFrom bar L (scanStep bar L s i) t := rfl
    rw [h1, h2, scanStep_congr bar bar' L i s (hL i (List.mem_cons_self i t))
      (fun j hj => hagree j (by have := hm i (List.mem_cons_self i t); omega))]
    exact ih (scanStep bar L s i) (fun j hj => hL j (List.mem_cons_of_mem i hj))
      (fun j hj => hm j (List.mem_cons_of_mem i hj))

/-- A scan only appends pivots, and every appended pivot has the candidate
index of one of the visited evaluation indices. -/
lemma scanFrom_append_pivots (bar : Nat → Bar) (L : Nat) :
    ∀ (l : List Nat) (s : ScanState),
      ∃ hrest lrest,
        (scanFrom bar L s l).highs = s.highs ++ hrest ∧
        (scanFrom bar L s l).lows = s.lows ++ lrest ∧
        (∀ pv ∈ hrest, ∃ i ∈ l, pv.index = i - L) ∧
        (∀ pv ∈ lrest, ∃ i ∈ l, pv.index = i - L) := by
  intro l
  induction l with
  | nil => intro s; exact ⟨[], [], by simp [scanFrom], by simp [scanFrom], by simp, by simp⟩
  | cons i t ih =>
    intro s
    obtain ⟨hrest, lrest, h1, h2, h3, h4⟩ := ih (scanStep bar L s i)
    have hstep : scanFrom bar L s (i :: t) = scanFrom bar L (scanStep bar L s i) t := rfl
    rcases scanStep_highs_cases bar L s i with hc | hc <;>
      rcases scanStep_lows_cases bar L s i with hd | hd
    · exact ⟨hrest, lrest, by rw [hstep, h1, hc], by rw [hstep, h2, hd],
        fun pv hpv => (h3 pv hpv).elim (fun i2 hi2 =>
          ⟨i2, List.mem_cons_of_mem i hi2.1, hi2.2⟩),
        fun pv hpv => (h4 pv hpv).elim (fun i2 hi2 =>
          ⟨i2, List.mem_cons_of_mem i hi2.1, hi2.2⟩)⟩
    · refine ⟨hrest, ⟨i - L, (bar (i - L)).low⟩ :: lrest,
        by rw [hstep, h1, hc], by rw [hstep, h2, hd, List.append_assoc, List.singleton_append], ?_, ?_⟩
      · intro pv hpv
        obtain ⟨i2, hi2, he⟩ := h3 pv hpv
        exact ⟨i2, List.mem_cons_of_mem i hi2, he⟩
      · intro pv hpv
        rcases List.mem_cons.mp hpv with he | hpv2
        · exact ⟨i, List.mem_cons_self i t, by rw [he]⟩
        · obtain ⟨i2, hi2, he⟩ := h4 pv hpv2
          exact ⟨i2, List.mem_cons_of_mem i hi2, he⟩
    · refine ⟨⟨i - L, (bar (i - L)).high⟩ :: hrest, lrest,
        by rw [hstep, h1, hc, List.append_assoc, List.singleton_append], by rw [hstep, h2, hd], ?_, ?_⟩
      · intro pv hpv
        rcases List.mem_cons.mp hpv with he | hpv2
        · exact ⟨i, List.mem_cons_self i t, by rw [he]⟩
        · obtain ⟨i2, hi2, he⟩ := h3 pv hpv2
          exact ⟨i2, List.mem_cons_of_mem i hi2, he⟩
      · intro pv hpv
        obtain ⟨i2, hi2, he⟩ := h4 pv hpv
        exact ⟨i2, List.mem_cons_of_mem i hi2, he⟩
    · refine ⟨⟨i - L, (bar (i - L)).high⟩ :: hrest, ⟨i - L, (bar (i - L)).low⟩ :: lrest,
        by rw [hstep, h1, hc, List.append_assoc, List.singleton_append], by rw [hstep, h2, hd, List.append_assoc, List.singleton_append], ?_, ?_⟩
      · intro pv hpv
        rcases List.mem_cons.mp hpv with he | hpv2
        · exact ⟨i, List.mem_cons_self i t, by rw [he]⟩
        · obtain ⟨i2, hi2, he⟩ := h3 pv hpv2
          exact ⟨i2, List.mem_cons_of_mem i hi2, he⟩
      · intro pv hpv
        rcases List.mem_cons.mp hpv with he | hpv2
        · exact ⟨i, List.mem_cons_self i t, by rw [he]⟩
        · obtain ⟨i2, hi2, he⟩ := h4 pv hpv2
          exact ⟨i2, List.mem_cons_of_mem i hi2, he⟩

/-- Every pivot confirmed by the full scan has its confirmation index, pivot
index plus lookback, inside the array. -/
lemma pivotScan_index_lt (bar : Nat → Bar) (n L : Nat) :
    (∀ pv ∈ (pivotScan bar n L).highs, pv.index + L < n) ∧
    (∀ pv ∈ (pivotScan bar n L).lows, pv.index + L < n) := by
  obtain ⟨hrest, lrest, h1, h2, h3, h4⟩ :=
    scanFrom_append_pivots bar L (List.range' L (n - L)) scanInit
  rw [pivotScan, h1, h2]
  constructor
  · intro pv hpv
    simp only [scanInit, List.nil_append] at hpv
    obtain ⟨i, hi, he⟩ := h3 pv hpv
    rw [mem_range_one] at hi
    omega
  · intro pv hpv
    simp only [scanInit, List.nil_append] at hpv
    obtain ⟨i, hi, he⟩ := h4 pv hpv
    rw [mem_range_one] at hi
    omega

/-- Appending bars only appends pivots, and every appended pivot lies at or
beyond the old horizon. -/
lemma pivotScan_extend (bar bar' : Nat → Bar) (nOld nNew L : Nat)
    (hnn : nOld ≤ nNew) (hagree : ∀ j, j < nOld → bar' j = bar j) :
    ∃ hrest lrest,
      (pivotScan bar' nNew L).highs = (pivotScan bar nOld L).highs ++ hrest ∧
      (pivotScan bar' nNew L).lows = (pivotScan bar nOld L).lows ++ lrest ∧
      (∀ pv ∈ hrest, nOld - L ≤ pv.index) ∧ (∀ pv ∈ lrest, nOld - L ≤ pv.index) := by
  rcases le_or_lt L nOld with hL | hL
  · have hsplit : List.range' L (nNew - L) =
        List.range' L (nOld - L) ++ List.range' nOld (nNew - nOld) := by
      have h1 : L + (nOld - L) = nOld := by omega
      have h2 : (nNew - nOld) + (nOld - L) = nNew - L := by omega
      rw [← h2, ← List.range'_append_1 L (nOld - L) (nNew - nOld), h1]
    have hpre : scanFrom bar' L scanInit (List.range' L (nOld - L)) = pivotScan bar nOld L := by
      rw [pivotScan]
      apply scanFrom_congr bar bar' L nOld hagree
      · intro i hi
        rw [mem_range_one] at hi
        omega
      · intro i hi
        rw [mem_range_one] at hi
        omega
    have hext : pivotScan bar' nNew L =
        scanFrom bar' L (pivotScan bar nOld L) (List.range' nOld (nNew - nOld)) := by
      rw [pivotScan, hsplit, ← hpre]
      rw [scanFrom, scanFrom, scanFrom, List.foldl_append]
    obtain ⟨hrest, lrest, h1, h2, h3, h4⟩ :=
      scanFrom_append_pivots bar' L (List.range' nOld (nNew - nOld)) (pivotScan bar nOld L)
    refine ⟨hrest, lrest, by rw [hext, h1], by rw [hext, h2], ?_, ?_⟩
    · intro pv hpv
      obtain ⟨i, hi, he⟩ := h3 pv hpv
      rw [mem_range_one] at hi
      omega
    · intro pv hpv
      obtain ⟨i, hi, he⟩ := h4 pv hpv
      rw [mem_range_one] at hi
      omega
  · have h0 : nOld - L = 0 := by omega
    have hold : pivotScan bar nOld L = scanInit := by
      rw [pivotScan, h0]
      rfl
    obtain ⟨hrest, lrest, h1, h2, _, _⟩ :=
      scanFrom_append_pivots bar' L (List.range' L (nNew - L)) scanInit
    refine ⟨hrest, lrest, ?_, ?_, ?_, ?_⟩
    · rw [pivotScan, h1, hold]
    · rw [pivotScan, h2, hold]
    · intro pv _
      omega
    · intro pv _
      omega

/-- Pivot highs appended at the end of the live list and not yet eligible do
not change the bullish check: the step acts on the old prefix and carries the
appendix along. -/
lemma bullStep_append (close : ℚ) (i : Nat) (s : ClsState) (hrest lrest : List Pivot)
    (hfail : ∀ pv ∈ hrest, bullBreakPred close i pv = false) :
    bullStep close i ⟨s.highs ++ hrest, s.lows ++ lrest, s.trend, s.events⟩ =
      ⟨(bullStep close i s).highs ++ hrest, (bullStep close i s).lows ++ lrest,
       (bullStep close i s).trend, (bullStep close i s).events⟩ := by
  cases h : s.highs.find? (bullBreakPred close i) with
  | none =>
    have hrn : hrest.find? (bullBreakPred close i) = none :=
      List.find?_eq_none.mpr (fun x hx hpx => by rw [hfail x hx] at hpx; cases hpx)
    have hf2 : (s.highs ++ hrest).find? (bullBreakPred close i) = none := by
      rw [List.find?_append, h, hrn]
      rfl
    simp [bullStep, h, hf2]
  | some pv =>
    have hf2 : (s.highs ++ hrest).find? (bullBreakPred close i) = some pv := by
      rw [List.find?_append, h]
      rfl
    simp [bullStep, h, hf2, List.erase_append_left _ (List.mem_of_find?_eq_some h)]

/-- Pivot lows appended at the end of the live list and not yet eligible do
not change the bearish check. -/
lemma bearStep_append (close : ℚ) (i : Nat) (s : ClsState) (hrest lrest : List Pivot)
    (hfail : ∀ pv ∈ lrest, bearBreakPred close i pv = false) :
    bearStep close i ⟨s.highs ++ hrest, s.lows ++ lrest, s.trend, s.events⟩ =
      ⟨(bearStep close i s).highs ++ hrest, (bearStep close i s).lows ++ lrest,
       (bearStep close i s).trend, (bearStep close i s).events⟩ := by
  cases h : s.lows.find? (bearBreakPred close i) with
  | none =>
    have hrn : lrest.find? (bearBreakPred close i) = none :=
      List.find?_eq_none.mpr (fun x hx hpx => by rw [hfail x hx] at hpx; cases hpx)
    have hf2 : (s.lows ++ lrest).find? (bearBreakPred close i) = none := by
      rw [List.find?_append, h, hrn]
      rfl
    simp [bearStep, h, hf2]
  | some pv =>
    have hf2 : (s.lows ++ lrest).find? (bearBreakPred close i) = some pv := by
      rw [List.find?_append, h]
      rfl
    simp [bearStep, h, hf2, List.erase_append_left _ (List.mem_of_find?_eq_some h)]

/-- One bar of classification ignores appended pivots whose index is at or
after the bar, and depends on the bar sequence only at that bar. -/
lemma classifyStep_append (bar bar' : Nat → Bar) (i : Nat) (s : ClsState)
    (hrest lrest : List Pivot)
    (hbar : bar' i = bar i)
    (hfh : ∀ pv ∈ hrest, i ≤ pv.index)
    (hfl : ∀ pv ∈ lrest, i ≤ pv.index) :
    classifyStep bar' ⟨s.highs ++ hrest, s.lows ++ lrest, s.trend, s.events⟩ i =
      ⟨(classifyStep bar s i).highs ++ hrest, (classifyStep bar s i).lows ++ lrest,
       (classifyStep bar s i).trend, (classifyStep bar s i).events⟩ := by
  have hfailh : ∀ pv ∈ hrest, bullBreakPred (bar i).close i pv = false := by
    intro pv hpv
    rw [bullBreakPred]
    have := hfh pv hpv
    simp [Nat.not_lt.mpr this]
  have hfaill : ∀ pv ∈ lrest, bearBreakPred (bar i).close i pv = false := by
    intro pv hpv
    rw [bearBreakPred]
    have := hfl pv hpv
    simp [Nat.not_lt.mpr this]
  rw [classifyStep, classifyStep, hbar]
  rw [bullStep_append (bar i).close i s hrest lrest hfailh]
  exact bearStep_append (bar i).close i (bullStep (bar i).close i s) hrest lrest hfaill

/-- Classification over bars that precede every appended pivot carries the
appendix through the whole fold and produces identical events. -/
lemma classifyFrom_append (bar bar' : Nat → Bar) (hrest lrest : List Pivot) :
    ∀ (l : List Nat) (s : ClsState),
      (∀ i ∈ l, bar' i = bar i) →
      (∀ i ∈ l, ∀ pv ∈ hrest, i ≤ pv.index) →
      (∀ i ∈ l, ∀ pv ∈ lrest, i ≤ pv.index) →
      classifyFrom bar' ⟨s.highs ++ hrest, s.lows ++ lrest, s.trend, s.events⟩ l =
        ⟨(classifyFrom bar s l).highs ++ hrest, (classifyFrom bar s l).lows ++ lrest,
         (classifyFrom bar s l).trend, (classifyFrom bar s l).events⟩ := by
  intro l
  induction l with
  | nil => intro s _ _ _; rfl
  | cons i t ih =>
    intro s hbar hfh hfl
    have h1 : classifyFrom bar' ⟨s.highs ++ hrest, s.lows ++ lrest, s.trend, s.events⟩ (i :: t) =
        classifyFrom bar'
          (classifyStep bar' ⟨s.highs ++ hrest, s.lows ++ lrest, s.trend, s.events⟩ i) t := rfl
    have h2 : classifyFrom bar s (i :: t) = classifyFrom bar (classifyStep bar s i) t := rfl
    rw [h1, h2, classifyStep_append bar bar' i s hrest lrest
      (hbar i (List.mem_cons_self i t))
      (hfh i (List.mem_cons_self i t)) (hfl i (List.mem_cons_self i t))]
    exact ih (classifyStep bar s i) (fun j hj => hbar j (List.mem_cons_of_mem i hj))
      (fun j hj => hfh j (List.mem_cons_of_mem i hj))
      (fun j hj => hfl j (List.mem_cons_of_mem i hj))

/-- New events of one bar are stamped with that bar as breakIndex. -/
lemma classifyStep_events_break (bar : Nat → Bar) (s : ClsState) (i : Nat) :
    ∃ rest, (classifyStep bar s i).events = s.events ++ rest ∧
      ∀ e ∈ rest, e.breakIndex = i := by
  have hb : ∀ (close : ℚ) (t : ClsState), ∃ rest, (bullStep close i t).events = t.events ++ rest ∧
      ∀ e ∈ rest, e.breakIndex = i := by
    intro close t
    cases h : t.highs.find? (bullBreakPred close i) with
    | none => exact ⟨[], by simp [bullStep, h], by simp⟩
    | some pv =>
      refine ⟨[⟨pv.index, i, pv.price, decide (t.trend = Trend.bearish), true⟩],
        by simp [bullStep, h], ?_⟩
      intro e he
      rw [List.mem_singleton] at he
      rw [he]
  have hr : ∀ (close : ℚ) (t : ClsState), ∃ rest, (bearStep close i t).events = t.events ++ rest ∧
      ∀ e ∈ rest, e.breakIndex = i := by
    intro close t
    cases h : t.lows.find? (bearBreakPred close i) with
    | none => exact ⟨[], by simp [bearStep, h], by simp⟩
    | some pv =>
      refine ⟨[⟨pv.index, i, pv.price, decide (t.trend = Trend.bullish), false⟩],
        by simp [bearStep, h], ?_⟩
      intro e he
      rw [List.mem_singleton] at he
      rw [he]
  obtain ⟨r1, hr1, he1⟩ := hb (bar i).close s
  obtain ⟨r2, hr2, he2⟩ := hr (bar i).close (bullStep (bar i).close i s)
  refine ⟨r1 ++ r2, ?_, ?_⟩
  · rw [classifyStep, hr2, hr1, List.append_assoc]
  · intro e he
    rcases List.mem_append.mp he with h | h
    · exact he1 e h
    · exact he2 e h

/-- Bars processed after the horizon only append events breaking at or after
those bars, so the filtered event prefix up to the horizon is stable. -/
lemma classifyFrom_tail_filter (bar : Nat → Bar) (B : Nat) :
    ∀ (l : List Nat) (s : ClsState), (∀ i ∈ l, B < i) →
      ((classifyFrom bar s l).events).filter (fun e => decide (e.breakIndex ≤ B)) =
        s.events.filter (fun e => decide (e.breakIndex ≤ B)) := by
  intro l
  induction l with
  | nil => intro s _; rfl
  | cons i t ih =>
    intro s hgt
    have h1 : classifyFrom bar s (i :: t) = classifyFrom bar (classifyStep bar s i) t := rfl
    rw [h1, ih (classifyStep bar s i) (fun j hj => hgt j (List.mem_cons_of_mem i hj))]
    obtain ⟨rest, hre, hbr⟩ := classifyStep_events_break bar s i
    rw [hre, List.filter_append]
    have : rest.filter (fun e => decide (e.breakIndex ≤ B)) = [] := by
      rw [List.filter_eq_nil_iff]
      intro e he
      rw [hbr e he]
      have := hgt i (List.mem_cons_self i t)
      simp
      omega
    rw [this, List.append_nil]

/-- C7 amended: appending bars reproduces exactly the pivots with index
strictly below nOld - L (the extended run may add a pivot at index exactly
nOld - L, confirmed by the new bars), and reproduces exactly the break
events with breakIndex at most nOld - L. -/
theorem append_stability_amended (bar bar' : Nat → Bar) (nOld nNew L : Nat)
    (hL : 0 < L) (hLn : L ≤ nOld) (hnn : nOld ≤ nNew)
    (hagree : ∀ j, j < nOld → bar' j = bar j) :
    (pivotScan bar' nNew L).highs.filter (fun pv => decide (pv.index < nOld - L)) =
      (pivotScan bar nOld L).highs ∧
    (pivotScan bar' nNew L).lows.filter (fun pv => decide (pv.index < nOld - L)) =
      (pivotScan bar nOld L).lows ∧
    (runLevel bar' nNew L).events.filter (fun e => decide (e.breakIndex ≤ nOld - L)) =
      (runLevel bar nOld L).events.filter (fun e => decide (e.breakIndex ≤ nOld - L)) := by
  obtain ⟨hrest, lrest, hH, hLo, hbh, hbl⟩ := pivotScan_extend bar bar' nOld nNew L hnn hagree
  obtain ⟨hiH, hiL⟩ := pivotScan_index_lt bar nOld L
  refine ⟨?_, ?_, ?_⟩
  · rw [hH, List.filter_append]
    have h1 : (pivotScan bar nOld L).highs.filter (fun pv => decide (pv.index < nOld - L)) =
        (pivotScan bar nOld L).highs := by
      apply List.filter_eq_self.mpr
      intro pv hpv
      have := hiH pv hpv
      simp only [decide_eq_true_eq]
      omega
    have h2 : hrest.filter (fun pv => decide (pv.index < nOld - L)) = [] := by
      apply List.filter_eq_nil_iff.mpr
      intro pv hpv
      have := hbh pv hpv
      simp only [decide_eq_true_eq]
      omega
    rw [h1, h2, List.append_nil]
  · rw [hLo, List.filter_append]
    have h1 : (pivotScan bar nOld L).lows.filter (fun pv => decide (pv.index < nOld - L)) =
        (pivotScan bar nOld L).lows := by
      apply List.filter_eq_self.mpr
      intro pv hpv
      have := hiL pv hpv
      simp only [decide_eq_true_eq]
      omega
    have h2 : lrest.filter (fun pv => decide (pv.index < nOld - L)) = [] := by
      apply List.filter_eq_nil_iff.mpr
      intro pv hpv
      have := hbl pv hpv
      simp only [decide_eq_true_eq]
      omega
    rw [h1, h2, List.append_nil]
  · have hB1 : nOld - L + 1 ≤ nOld := by omega
    have hsplitNew : List.range nNew =
        List.range (nOld - L + 1) ++ List.range' (nOld - L + 1) (nNew - (nOld - L + 1)) := by
      rw [List.range_eq_range', List.range_eq_range']
      have h3 := List.range'_append_1 0 (nOld - L + 1) (nNew - (nOld - L + 1))
      rw [Nat.zero_add] at h3
      rw [show nNew - (nOld - L + 1) + (nOld - L + 1) = nNew from by omega] at h3
      exact h3.symm
    have hsplitOld : List.range nOld =
        List.range (nOld - L + 1) ++ List.range' (nOld - L + 1) (nOld - (nOld - L + 1)) := by
      rw [List.range_eq_range', List.range_eq_range']
      have h3 := List.range'_append_1 0 (nOld - L + 1) (nOld - (nOld - L + 1))
      rw [Nat.zero_add] at h3
      rw [show nOld - (nOld - L + 1) + (nOld - L + 1) = nOld from by omega] at h3
      exact h3.symm
    have hhead : classifyFrom bar'
        ⟨(pivotScan bar nOld L).highs ++ hrest, (pivotScan bar nOld L).lows ++ lrest,
          Trend.neutral, []⟩ (List.range (nOld - L + 1)) =
        ⟨(classifyFrom bar
            ⟨(pivotScan bar nOld L).highs, (pivotScan bar nOld L).lows, Trend.neutral, []⟩
            (List.range (nOld - L + 1))).highs ++ hrest,
          (classifyFrom bar
            ⟨(pivotScan bar nOld L).highs, (pivotScan bar nOld L).lows, Trend.neutral, []⟩
            (List.range (nOld - L + 1))).lows ++ lrest,
          (classifyFrom bar
            ⟨(pivotScan bar nOld L).highs, (pivotScan bar nOld L).lows, Trend.neutral, []⟩
            (List.range (nOld - L + 1))).trend,
          (classifyFrom bar
            ⟨(pivotScan bar nOld L).highs, (pivotScan bar nOld L).lows, Trend.neutral, []⟩
            (List.range (nOld - L + 1))).events⟩ :=
      classifyFrom_append bar bar' hrest lrest (List.range (nOld - L + 1))
        ⟨(pivotScan bar nOld L).highs, (pivotScan bar nOld L).lows, Trend.neutral, []⟩
        (fun i hi => hagree i (by rw [List.mem_range] at hi; omega))
        (fun i hi pv hpv => by rw [List.mem_range] at hi; have := hbh pv hpv; omega)
        (fun i hi pv hpv => by rw [List.mem_range] at hi; have := hbl pv hpv; omega)
    have hrunNew : runLevel bar' nNew L = classifyFrom bar'
        ⟨(pivotScan bar nOld L).highs ++ hrest, (pivotScan bar nOld L).lows ++ lrest,
          Trend.neutral, []⟩ (List.range nNew) := by
      rw [runLevel, classify, hH, hLo]
    have hnewsplit : classifyFrom bar'
        ⟨(pivotScan bar nOld L).highs ++ hrest, (pivotScan bar nOld L).lows ++ lrest,
          Trend.neutral, []⟩ (List.range nNew) =
        classifyFrom bar'
          (classifyFrom bar'
            ⟨(pivotScan bar nOld L).highs ++ hrest, (pivotScan bar nOld L).lows ++ lrest,
              Trend.neutral, []⟩ (List.range (nOld - L + 1)))
          (List.range' (nOld - L + 1) (nNew - (nOld - L + 1))) := by
      rw [hsplitNew]
      rw [classifyFrom, classifyFrom, classifyFrom, List.foldl_append]
    have holdsplit : runLevel bar nOld L =
        classifyFrom bar
          (classifyFrom bar
            ⟨(pivotScan bar nOld L).highs, (pivotScan bar nOld L).lows, Trend.neutral, []⟩
            (List.range (nOld - L + 1)))
          (List.range' (nOld - L + 1) (nOld - (nOld - L + 1))) := by
      rw [runLevel, classify, hsplitOld]
      rw [classifyFrom, classifyFrom, classifyFrom, List.foldl_append]
    have hub1 : ∀ i ∈ List.range' (nOld - L + 1) (nNew - (nOld - L + 1)), nOld - L < i := by
      intro i hi
      rw [mem_range_one] at hi
      omega
    have hub2 : ∀ i ∈ List.range' (nOld - L + 1) (nOld - (nOld - L + 1)), nOld - L < i := by
      intro i hi
      rw [mem_range_one] at hi
      omega
    rw [hrunNew, hnewsplit, hhead, holdsplit,
      classifyFrom_tail_filter bar' (nOld - L)
        (List.range' (nOld - L + 1) (nNew - (nOld - L + 1))) _ hub1,
      classifyFrom_tail_filter bar (nOld - L)
        (List.range' (nOld - L + 1) (nOld - (nOld - L + 1))) _ hub2]

/-- C7 amended, applied at a concrete instance: extending the three bars of
exBarA by one appended bar with lookback 2 reproduces the pivots below index
1 and the break events up to bar 1. -/
theorem append_stability_amended_witness :
    (pivotScan exBarA 4 2).highs.filter (fun pv => decide (pv.index < 3 - 2)) =
      (pivotScan exBarA 3 2).highs ∧
    (pivotScan exBarA 4 2).lows.filter (fun pv => decide (pv.index < 3 - 2)) =
      (pivotScan exBarA 3 2).lows ∧
    (runLevel exBarA 4 2).events.filter (fun e => decide (e.breakIndex ≤ 3 - 2)) =
      (runLevel exBarA 3 2).events.filter (fun e => decide (e.breakIndex ≤ 3 - 2)) :=
  append_stability_amended exBarA exBarA 3 4 2 (by omega) (by omega) (by omega)
    (fun j hj => rfl)

end SMC
